import Mathlib

-- Verification of the lesion/sub-ROI Overlap Quantifier
-- (script/calculate_overlap_with_subROIs.py).
--
-- Strings are embedded as lists of characters (Python strings are sequences of
-- code points), 3-D volumes as a shape together with the row-major (C-order)
-- list of rational voxel values, and the script's interaction with the file
-- system as an explicit environment: the entries of the fixed map-library
-- directory, the file-existence test, and the volume decoder.  A raised
-- exception is modelled by `none` / `Except.error`.

namespace OverlapQuantifier

-- ### The fixed constants of the script

/-- Characters of the hard-coded reference-map library directory. -/
def dirChars : List Char :=
  "/home/alberto/test_subalpamaps/APSS_Atlas/apss_subcortical_maps".data

/-- Characters of the fixed suffix stripped from map file names. -/
def suffixChars : List Char := "_union_randomise_1mm.nii.gz".data

-- ### Python string operations

/-- Python `s.split(sep)[0]` for a non-empty separator: the part of `s` before
the first occurrence of `sep`, or all of `s` when `sep` does not occur. -/
def beforeFirst (sep : List Char) : List Char → List Char
  | [] => []
  | c :: rest => if sep.isPrefixOf (c :: rest) then [] else c :: beforeFirst sep rest

/-- Python `s.split(c)[-1]` for a single-character separator: the part of `s`
after the last occurrence of `c`, or all of `s` when `c` does not occur. -/
def afterLast (c : Char) : List Char → List Char
  | [] => []
  | a :: rest => if c ∈ rest then afterLast c rest else if a = c then rest else a :: rest

/-- Display name of a map path: `ii.split('_union_randomise_1mm.nii.gz')[0].split('/')[-1]`. -/
def displayName (path : List Char) : List Char :=
  afterLast '/' (beforeFirst suffixChars path)

/-- POSIX `os.path.basename`. -/
def basenameChars (path : List Char) : List Char := afterLast '/' path

/-- Patient identifier: `os.path.basename(lesion).split('_')[0]`. -/
def patId (path : List Char) : List Char := beforeFirst ['_'] (basenameChars path)

/-- Lexicographic comparison of code-point sequences, as Python compares strings. -/
def strLe : List Char → List Char → Bool
  | [], _ => true
  | _ :: _, [] => false
  | a :: x, b :: y => if a = b then strLe x y else decide (a < b)

/-- The ordering used by `sorted` on the path strings. -/
def chLE (a b : List Char) : Prop := strLe a b = true

instance : DecidableRel chLE := fun a b => by unfold chLE; infer_instance

/-- The glob pattern `*gz`: the name ends in `gz` and is not a hidden dot-file. -/
def globMatch (name : List Char) : Bool :=
  ['g', 'z'].isSuffixOf name &&
    (match name with | [] => false | c :: _ => decide (c ≠ '.'))

/-- `os.path.join(path_to_maps, name)` for the fixed library directory. -/
def joinPath (name : List Char) : List Char := dirChars ++ '/' :: name

-- ### 3-D arrays and the NumPy operations used by the script

/-- A 3-dimensional numeric array: a shape and the row-major list of values. -/
structure Arr3 where
  s1 : Nat
  s2 : Nat
  s3 : Nat
  data : List ℚ
  deriving DecidableEq

/-- Well-formed: the flat data holds exactly one value per voxel. -/
def Arr3.wf (A : Arr3) : Prop := A.data.length = A.s1 * A.s2 * A.s3

/-- Two arrays over the same voxel grid. -/
def Arr3.sameShape (A B : Arr3) : Prop := A.s1 = B.s1 ∧ A.s2 = B.s2 ∧ A.s3 = B.s3

instance (A : Arr3) : Decidable A.wf := by unfold Arr3.wf; infer_instance

instance (A B : Arr3) : Decidable (A.sameShape B) := by unfold Arr3.sameShape; infer_instance

/-- Value at voxel `(i, j, k)` of a row-major array. -/
def Arr3.get (A : Arr3) (i j k : Nat) : ℚ :=
  A.data.getD (i * (A.s2 * A.s3) + j * A.s3 + k) 0

/-- The binarization rule applied to one voxel value. -/
def binFun (x : ℚ) : ℚ := if x ≠ 0 then 1 else x

/-- `pat_data[pat_data != 0] = 1`: every non-zero voxel becomes 1, others are untouched. -/
def binarize (A : Arr3) : Arr3 := ⟨A.s1, A.s2, A.s3, A.data.map binFun⟩

/-- NumPy dimension broadcasting: two sizes are compatible when they are equal
or one of them is 1; the broadcast size is the larger one. -/
def bdim (a b : Nat) : Option Nat :=
  if a = b then some a else if a = 1 then some b else if b = 1 then some a else none

/-- Index into a possibly-broadcast dimension of size `s`. -/
def bidx (s i : Nat) : Nat := if s = 1 then 0 else i

/-- NumPy elementwise product of two 3-D arrays, with broadcasting; `none`
models the `ValueError` raised on incompatible shapes. -/
def npMul (A B : Arr3) : Option Arr3 :=
  match bdim A.s1 B.s1, bdim A.s2 B.s2, bdim A.s3 B.s3 with
  | some r1, some r2, some r3 =>
      some ⟨r1, r2, r3,
        (List.range r1).flatMap (fun i =>
          (List.range r2).flatMap (fun j =>
            (List.range r3).map (fun k =>
              A.get (bidx A.s1 i) (bidx A.s2 j) (bidx A.s3 k) *
                B.get (bidx B.s1 i) (bidx B.s2 j) (bidx B.s3 k))))⟩
  | _, _, _ => none

/-- `inter[inter != 0]`: the non-zero entries, in row-major order. -/
def nonzeros (A : Arr3) : List ℚ := A.data.filter (fun x => decide (x ≠ 0))

/-- Floor of a non-negative rational, as a natural number. -/
def qFloorNat (q : ℚ) : Nat := q.num.toNat / q.den

/-- Ceiling of a non-negative rational, as a natural number. -/
def qCeilNat (q : ℚ) : Nat := (q.num.toNat + q.den - 1) / q.den

/-- NumPy `np.percentile(xs, q)` with its default linear-interpolation method:
with the sample sorted ascending into `a` of length `n`, and the fractional
rank `h = (n - 1) * q / 100`, the result is `a[⌊h⌋] + (h - ⌊h⌋) * (a[⌈h⌉] - a[⌊h⌋])`. -/
def npPercentile (xs : List ℚ) (q : ℚ) : ℚ :=
  let a := List.insertionSort (· ≤ ·) xs
  let n := a.length
  let h : ℚ := ((n : ℚ) - 1) * q / 100
  let lo := qFloorNat h
  let hi := qCeilNat h
  let alo := a.getD lo 0
  let ahi := a.getD hi 0
  alo + (h - (lo : ℚ)) * (ahi - alo)

/-- The loop body for one reference map: the product with the (already
binarized) lesion data, then the 90th percentile of the non-zero entries of
the product, or 0 when there are none. -/
def score (mapArr patData : Arr3) : Option ℚ :=
  match npMul mapArr patData with
  | none => none
  | some inter =>
      let nz := nonzeros inter
      some (if 0 < nz.length then npPercentile nz 90 else 0)

-- ### The script as a whole

/-- The world the script runs in: the library directory entries, the
file-existence test, and the volume decoder (`nib.load(p).get_fdata()`;
`none` models a raised decode error). -/
structure Env where
  dirFiles : List (List Char)
  fileExists : List Char → Bool
  load : List Char → Option Arr3

/-- `maps = sorted(glob.glob(os.path.join(path_to_maps, '*gz')))`. -/
def mapsOf (env : Env) : List (List Char) :=
  List.insertionSort chLE ((env.dirFiles.filter globMatch).map joinPath)

/-- `map_names`, in column order. -/
def mainColumns (env : Env) : List (List Char) := (mapsOf env).map displayName

/-- The per-map loop of `main`: load each map and score it against the lesion
mask; any decode failure or broadcast failure aborts the whole run. -/
def scoresLoop (load : List Char → Option Arr3) (patData : Arr3) :
    List (List Char) → Option (List ℚ)
  | [] => some []
  | m :: rest =>
      match load m with
      | none => none
      | some md =>
          match score md patData with
          | none => none
          | some v =>
              match scoresLoop load patData rest with
              | none => none
              | some vs => some (v :: vs)

/-- First line printed by `main`. -/
def msgSaved (op : List Char) : List Char := "Results saved to ".data ++ op

/-- Second line printed by `main`. -/
def msgPatient (pid : List Char) : List Char := "Processed patient: ".data ++ pid

/-- The observable result of a successful run: the path the table was written
to, its row label, the single row as (column name, value) pairs, and the
printed lines. -/
structure Output where
  writtenPath : List Char
  rowLabel : List Char
  table : List (List Char × ℚ)
  printed : List (List Char)
  deriving DecidableEq

/-- The body of `main(lesions_path, output_path)`; `none` models an uncaught
exception aborting the run. -/
def runMain (env : Env) (lesionsPath outputPath : List Char) : Option Output :=
  match env.load lesionsPath with
  | none => none
  | some pat0 =>
      match scoresLoop env.load (binarize pat0) (mapsOf env) with
      | none => none
      | some vs =>
          some ⟨outputPath, patId lesionsPath, (mainColumns env).zip vs,
            [msgSaved outputPath, msgPatient (patId lesionsPath)]⟩

/-- The `FileNotFoundError` message of the `__main__` block. -/
def fnfMsg (lp : List Char) : List Char := "Lesion file not found: ".data ++ lp

/-- The `__main__` block: validate that the lesion path exists, then run
`main`.  `Except.error` models a raised exception and hence a non-zero exit
status; `Except.ok` models exit code 0. -/
def runProgram (env : Env) (lesionsPath outputPath : List Char) :
    Except (List Char) Output :=
  if env.fileExists lesionsPath then
    match runMain env lesionsPath outputPath with
    | some out => Except.ok out
    | none => Except.error ("processing aborted".data)
  else Except.error (fnfMsg lesionsPath)

-- ### Definitions following the specification text (for refinement claims)

/-- Modelled from the spec: the 90th percentile of a sample, by linear
interpolation between the two nearest ranks of the ascending-sorted sample. -/
def percentile90 (xs : List ℚ) : ℚ :=
  let a := List.insertionSort (· ≤ ·) xs
  let n := a.length
  let h : ℚ := 9 * ((n : ℚ) - 1) / 10
  a.getD (qFloorNat h) 0 +
    (h - (qFloorNat h : ℚ)) * (a.getD (qCeilNat h) 0 - a.getD (qFloorNat h) 0)

/-- Modelled from the spec: OverlapScore — the 90th percentile of the non-zero
values of the elementwise product of the binarized LesionVolume and the
ReferenceMap, defined as 0 when the product has no non-zero elements. -/
def specOverlapScore (lesionMask mapArr : Arr3) : ℚ :=
  let nz := (List.zipWith (· * ·) lesionMask.data mapArr.data).filter
    (fun x => decide (x ≠ 0))
  if nz = [] then 0 else percentile90 nz

-- ### Concrete inputs used to witness the theorems below

/-- A tiny library environment with one map file and an all-zero lesion volume. -/
def envW9 : Env :=
  ⟨[("agz".data)], fun _ => true,
    fun p =>
      if p = joinPath ("agz".data) then some ⟨1, 1, 1, [5]⟩
      else if p = "P1_les.nii".data then some ⟨1, 1, 1, [0]⟩
      else none⟩

/-- The output `envW9` produces for lesion `P1_les.nii` and output path `out.csv`. -/
def outW9 : Output :=
  ⟨"out.csv".data, "P1".data, [(("agz".data), 0)],
    [msgSaved ("out.csv".data), msgPatient ("P1".data)]⟩

-- ### Lemmas about the lexicographic order on path strings

theorem strLe_total : ∀ a b : List Char, strLe a b = true ∨ strLe b a = true
  | [], _ => Or.inl rfl
  | _ :: _, [] => Or.inr rfl
  | a :: x, b :: y => by
    by_cases hab : a = b
    · subst hab
      rcases strLe_total x y with h | h
      · exact Or.inl (by simpa [strLe] using h)
      · exact Or.inr (by simpa [strLe] using h)
    · rcases lt_or_gt_of_ne hab with h | h
      · exact Or.inl (by simp [strLe, hab, h])
      · exact Or.inr (by simp [strLe, Ne.symm hab, h])

theorem strLe_trans : ∀ a b c : List Char,
    strLe a b = true → strLe b c = true → strLe a c = true
  | [], _, _, _, _ => rfl
  | _ :: _, [], _, h, _ => by simp [strLe] at h
  | _ :: _, _ :: _, [], _, h => by simp [strLe] at h
  | a :: x, b :: y, c :: z, h1, h2 => by
    by_cases hab : a = b
    · subst hab
      by_cases hbc : a = c
      · subst hbc
        simp only [strLe, if_pos rfl] at h1 h2 ⊢
        exact strLe_trans x y z h1 h2
      · simp only [strLe, if_pos rfl] at h1
        simpa [strLe, hbc] using h2
    · by_cases hbc : b = c
      · subst hbc
        simpa [strLe, hab] using h1
      · have h1' : a < b := by simpa [strLe, hab] using h1
        have h2' : b < c := by simpa [strLe, hbc] using h2
        have hac : a < c := h1'.trans h2'
        simp [strLe, ne_of_lt hac, hac]

theorem strLe_antisymm : ∀ a b : List Char,
    strLe a b = true → strLe b a = true → a = b
  | [], [], _, _ => rfl
  | [], _ :: _, _, h => by simp [strLe] at h
  | _ :: _, [], h, _ => by simp [strLe] at h
  | a :: x, b :: y, h1, h2 => by
    by_cases hab : a = b
    · subst hab
      simp only [strLe, if_pos rfl] at h1 h2
      exact congrArg (a :: ·) (strLe_antisymm x y h1 h2)
    · have h1' : a < b := by simpa [strLe, hab] using h1
      have h2' : b < a := by simpa [strLe, Ne.symm hab] using h2
      exact absurd h1' (not_lt_of_gt h2')

instance : IsTotal (List Char) chLE := ⟨strLe_total⟩

instance : IsTrans (List Char) chLE := ⟨strLe_trans⟩

instance : IsAntisymm (List Char) chLE := ⟨strLe_antisymm⟩

theorem strLe_append (p : List Char) : ∀ a b, strLe (p ++ a) (p ++ b) = strLe a b := by
  induction p with
  | nil => intro a b; rfl
  | cons c p ih => intro a b; simpa [strLe] using ih a b

theorem chLE_joinPath (a b : List Char) : chLE (joinPath a) (joinPath b) ↔ chLE a b := by
  unfold chLE joinPath
  rw [List.append_cons dirChars '/' a, List.append_cons dirChars '/' b, strLe_append]

theorem orderedInsert_map_joinPath (a : List Char) (l : List (List Char)) :
    List.orderedInsert chLE (joinPath a) (l.map joinPath) =
      (List.orderedInsert chLE a l).map joinPath := by
  induction l with
  | nil => rfl
  | cons b l ih =>
    simp only [List.map_cons, List.orderedInsert]
    by_cases h : chLE a b
    · rw [if_pos h, if_pos ((chLE_joinPath a b).2 h)]
      simp
    · rw [if_neg h, if_neg (fun hc => h ((chLE_joinPath a b).1 hc)), List.map_cons, ih]

theorem insertionSort_map_joinPath (l : List (List Char)) :
    List.insertionSort chLE (l.map joinPath) =
      (List.insertionSort chLE l).map joinPath := by
  induction l with
  | nil => rfl
  | cons a l ih => simp only [List.map_cons, List.insertionSort, ih, orderedInsert_map_joinPath]

theorem insertionSort_eq_of_perm {l l' : List (List Char)} (h : l.Perm l') :
    List.insertionSort chLE l = List.insertionSort chLE l' :=
  List.eq_of_perm_of_sorted
    ((List.perm_insertionSort chLE l).trans (h.trans (List.perm_insertionSort chLE l').symm))
    (List.sorted_insertionSort chLE l) (List.sorted_insertionSort chLE l')

-- ### Lemmas about the split operations

theorem beforeFirst_subset (sep : List Char) : ∀ s, beforeFirst sep s ⊆ s := by
  intro s
  induction s with
  | nil => simp [beforeFirst]
  | cons c rest ih =>
    by_cases h : sep.isPrefixOf (c :: rest)
    · simp [beforeFirst, h]
    · simp only [beforeFirst, if_neg h]
      exact List.cons_subset_cons c ih

theorem beforeFirst_of_no_occurrence (sep : List Char) :
    ∀ s, ¬ (sep <:+: s) → beforeFirst sep s = s := by
  intro s
  induction s with
  | nil => intro _; rfl
  | cons c rest ih =>
    intro h
    have hpre : ¬ (sep.isPrefixOf (c :: rest) = true) := fun hb =>
      h (List.isPrefixOf_iff_prefix.1 hb).isInfix
    have h' : ¬ (sep <:+: rest) := fun hi => h (List.infix_cons hi)
    simp only [beforeFirst, if_neg hpre]
    exact congrArg (c :: ·) (ih h')

theorem beforeFirst_append (sep : List Char) (c : Char) (hne : sep ≠ []) (hc : c ∉ sep) :
    ∀ (p s : List Char), ¬ (sep <:+: (p ++ [c])) →
      beforeFirst sep (p ++ c :: s) = p ++ c :: beforeFirst sep s := by
  intro p
  induction p with
  | nil =>
    intro s _
    have hpre : ¬ (sep.isPrefixOf (c :: s) = true) := by
      intro hb
      have hp : sep <+: c :: s := List.isPrefixOf_iff_prefix.1 hb
      cases sep with
      | nil => exact hne rfl
      | cons d ds =>
        have hdc : d = c ∧ ds <+: s := List.cons_prefix_cons.1 hp
        exact hc (hdc.1 ▸ List.mem_cons_self d ds)
    simp only [List.nil_append, beforeFirst, if_neg hpre]
  | cons a p ih =>
    intro s hinf
    have hinf' : ¬ (sep <:+: (p ++ [c])) := fun hi => hinf (List.infix_cons hi)
    have hpre : ¬ (sep.isPrefixOf (a :: (p ++ c :: s)) = true) := by
      intro hb
      have hp : sep <+: a :: (p ++ c :: s) := List.isPrefixOf_iff_prefix.1 hb
      have hPc : (a :: (p ++ [c])) <+: a :: (p ++ c :: s) :=
        ⟨s, by simp⟩
      by_cases hlen : sep.length ≤ (a :: (p ++ [c])).length
      · have hsp : sep <+: a :: (p ++ [c]) :=
          List.prefix_of_prefix_length_le hp hPc hlen
        exact hinf hsp.isInfix
      · have hsp : (a :: (p ++ [c])) <+: sep :=
          List.prefix_of_prefix_length_le hPc hp (le_of_not_le hlen)
        have : c ∈ sep := hsp.subset (by simp)
        exact hc this
    simp only [List.cons_append, beforeFirst, List.append_eq, if_neg hpre]
    exact congrArg (a :: ·) (ih s hinf')

theorem afterLast_append (c : Char) : ∀ (p x : List Char), c ∉ x →
    afterLast c (p ++ c :: x) = x := by
  intro p
  induction p with
  | nil =>
    intro x hx
    simp [afterLast, hx]
  | cons a p ih =>
    intro x hx
    have hmem : c ∈ p ++ c :: x := by simp
    simp only [List.cons_append, afterLast, List.append_eq, if_pos hmem]
    exact ih x hx

theorem displayName_joinPath (name : List Char) (h : '/' ∉ name) :
    displayName (joinPath name) = beforeFirst suffixChars name := by
  unfold displayName joinPath
  rw [beforeFirst_append suffixChars '/' (by decide) (by decide) dirChars name (by decide)]
  exact afterLast_append '/' dirChars (beforeFirst suffixChars name)
    (fun hm => h (beforeFirst_subset suffixChars name hm))

theorem beforeFirst_singleton (c : Char) : ∀ s : List Char,
    c ∉ beforeFirst [c] s ∧
      ∃ rest, s = beforeFirst [c] s ++ rest ∧ (rest = [] ∨ ∃ t, rest = c :: t) := by
  intro s
  induction s with
  | nil => exact ⟨by simp [beforeFirst], [], rfl, Or.inl rfl⟩
  | cons a rest ih =>
    by_cases h : a = c
    · subst h
      have hpre : [a].isPrefixOf (a :: rest) = true :=
        List.isPrefixOf_iff_prefix.2 (List.cons_prefix_cons.2 ⟨rfl, List.nil_prefix⟩)
      refine ⟨?_, a :: rest, ?_, Or.inr ⟨rest, rfl⟩⟩
      · simp [beforeFirst, hpre]
      · simp [beforeFirst, hpre]
    · have hpre : ¬ ([c].isPrefixOf (a :: rest) = true) := by
        rw [List.isPrefixOf_iff_prefix, List.cons_prefix_cons]
        rintro ⟨hca, -⟩
        exact h hca.symm
      obtain ⟨ih1, rest', hr, hd⟩ := ih
      refine ⟨?_, rest', ?_, hd⟩
      · simp only [beforeFirst, if_neg hpre, List.mem_cons]
        rintro (hca | hmem)
        · exact h hca.symm
        · exact ih1 hmem
      · simp only [beforeFirst, if_neg hpre, List.cons_append]
        exact congrArg (a :: ·) hr

-- ### Lemmas about the NumPy array operations

theorem bidx_of_lt {s i : Nat} (h : i < s) : bidx s i = i := by
  unfold bidx
  by_cases hs : s = 1
  · subst hs
    rw [if_pos rfl]
    exact (Nat.lt_one_iff.1 h).symm
  · rw [if_neg hs]

theorem flatMap_congr {α β : Type} {l : List α} {f g : α → List β}
    (h : ∀ x ∈ l, f x = g x) : l.flatMap f = l.flatMap g := by
  induction l with
  | nil => rfl
  | cons a l ih =>
    simp only [List.flatMap_cons, h a (List.mem_cons_self a l)]
    rw [ih (fun x hx => h x (List.mem_cons_of_mem a hx))]

theorem range_mul_flatMap {α : Type} (f : Nat → α) : ∀ (a b : Nat),
    (List.range a).flatMap (fun i => (List.range b).map (fun j => f (i * b + j))) =
      (List.range (a * b)).map f := by
  intro a
  induction a with
  | zero => intro b; simp
  | succ a ih =>
    intro b
    rw [List.range_succ, List.flatMap_append, ih b, Nat.succ_mul, List.range_add]
    simp only [List.flatMap_cons, List.flatMap_nil, List.append_nil, List.map_append,
      List.map_map]
    rfl

theorem map_range_zipWith_mul : ∀ (n : Nat) (a b : List ℚ),
    a.length = n → b.length = n →
      (List.range n).map (fun t => a.getD t 0 * b.getD t 0) = List.zipWith (· * ·) a b := by
  intro n
  induction n with
  | zero =>
    intro a b ha hb
    rw [List.length_eq_zero] at ha hb
    subst ha
    subst hb
    rfl
  | succ n ih =>
    intro a b ha hb
    cases a with
    | nil => simp at ha
    | cons x xs =>
      cases b with
      | nil => simp at hb
      | cons y ys =>
        rw [List.range_succ_eq_map, List.map_cons, List.map_map]
        have h1 : ((fun t => (x :: xs).getD t 0 * (y :: ys).getD t 0) ∘ Nat.succ) =
            (fun t => xs.getD t 0 * ys.getD t 0) := rfl
        rw [h1, ih xs ys (by simpa using ha) (by simpa using hb)]
        rfl

theorem npMul_same_shape (A B : Arr3) (hA : A.wf) (hB : B.wf)
    (h1 : A.s1 = B.s1) (h2 : A.s2 = B.s2) (h3 : A.s3 = B.s3) :
    npMul A B = some ⟨A.s1, A.s2, A.s3, List.zipWith (· * ·) A.data B.data⟩ := by
  have hb : ∀ s : Nat, bdim s s = some s := fun s => by simp [bdim]
  have hdata :
      (List.range A.s1).flatMap (fun i => (List.range A.s2).flatMap (fun j =>
        (List.range A.s3).map (fun k =>
          A.get (bidx A.s1 i) (bidx A.s2 j) (bidx A.s3 k) *
            B.get (bidx A.s1 i) (bidx A.s2 j) (bidx A.s3 k)))) =
      List.zipWith (· * ·) A.data B.data := by
    have hstep : ∀ i ∈ List.range A.s1,
        (List.range A.s2).flatMap (fun j => (List.range A.s3).map (fun k =>
          A.get (bidx A.s1 i) (bidx A.s2 j) (bidx A.s3 k) *
            B.get (bidx A.s1 i) (bidx A.s2 j) (bidx A.s3 k))) =
        (List.range (A.s2 * A.s3)).map
          (fun t => A.data.getD (i * (A.s2 * A.s3) + t) 0 *
            B.data.getD (i * (A.s2 * A.s3) + t) 0) := by
      intro i hi
      rw [← range_mul_flatMap (fun t => A.data.getD (i * (A.s2 * A.s3) + t) 0 *
        B.data.getD (i * (A.s2 * A.s3) + t) 0) A.s2 A.s3]
      apply flatMap_congr
      intro j hj
      apply List.map_congr_left
      intro k hk
      rw [bidx_of_lt (List.mem_range.1 hi), bidx_of_lt (List.mem_range.1 hj),
        bidx_of_lt (List.mem_range.1 hk)]
      show A.get i j k * B.get i j k =
        A.data.getD (i * (A.s2 * A.s3) + (j * A.s3 + k)) 0 *
          B.data.getD (i * (A.s2 * A.s3) + (j * A.s3 + k)) 0
      unfold Arr3.get
      rw [← h2, ← h3, Nat.add_assoc]
    calc
      (List.range A.s1).flatMap (fun i => (List.range A.s2).flatMap (fun j =>
          (List.range A.s3).map (fun k =>
            A.get (bidx A.s1 i) (bidx A.s2 j) (bidx A.s3 k) *
              B.get (bidx A.s1 i) (bidx A.s2 j) (bidx A.s3 k)))) =
          (List.range A.s1).flatMap (fun i => (List.range (A.s2 * A.s3)).map
            (fun t => A.data.getD (i * (A.s2 * A.s3) + t) 0 *
              B.data.getD (i * (A.s2 * A.s3) + t) 0)) := flatMap_congr hstep
      _ = (List.range (A.s1 * (A.s2 * A.s3))).map
            (fun t => A.data.getD t 0 * B.data.getD t 0) :=
          range_mul_flatMap (fun t => A.data.getD t 0 * B.data.getD t 0) A.s1 (A.s2 * A.s3)
      _ = List.zipWith (· * ·) A.data B.data :=
          map_range_zipWith_mul (A.s1 * (A.s2 * A.s3)) A.data B.data
            (hA.trans (Nat.mul_assoc A.s1 A.s2 A.s3))
            (by rw [hB, ← h1, ← h2, ← h3, Nat.mul_assoc])
  unfold npMul
  rw [← h1, ← h2, ← h3, hb A.s1, hb A.s2, hb A.s3]
  exact congrArg (fun d => some (Arr3.mk A.s1 A.s2 A.s3 d)) hdata

-- ### Lemmas about the percentile computation

theorem qFloorNat_intCast (q : ℚ) (hq : 0 ≤ q) : (qFloorNat q : ℤ) = ⌊q⌋ := by
  unfold qFloorNat
  rw [Rat.floor_def, Int.ofNat_tdiv, Int.toNat_of_nonneg (Rat.num_nonneg.2 hq),
    Int.tdiv_eq_ediv (Rat.num_nonneg.2 hq) (Int.ofNat_nonneg q.den)]

theorem percentile90_eq_npPercentile (xs : List ℚ) :
    percentile90 xs = npPercentile xs 90 := by
  simp only [percentile90, npPercentile]
  rw [show (9 : ℚ) * ((((List.insertionSort (· ≤ ·) xs).length : ℚ)) - 1) / 10 =
      (((List.insertionSort (· ≤ ·) xs).length : ℚ) - 1) * 90 / 100 from by ring]

theorem percentile_between (xs : List ℚ) (hne : xs ≠ []) :
    (∃ x ∈ xs, x ≤ npPercentile xs 90) ∧ (∃ y ∈ xs, npPercentile xs 90 ≤ y) := by
  have hperm : (List.insertionSort (· ≤ ·) xs).Perm xs := List.perm_insertionSort _ xs
  have hsort : (List.insertionSort (· ≤ ·) xs).Sorted (· ≤ ·) :=
    List.sorted_insertionSort _ xs
  set a := List.insertionSort (· ≤ ·) xs with ha
  set n := a.length with hn
  have hpos : 0 < n := by
    rw [hn, ha, hperm.length_eq]
    exact List.length_pos.2 hne
  set h : ℚ := ((n : ℚ) - 1) * 90 / 100 with hh
  have hval : npPercentile xs 90 =
      a.getD (qFloorNat h) 0 +
        (h - (qFloorNat h : ℚ)) * (a.getD (qCeilNat h) 0 - a.getD (qFloorNat h) 0) := rfl
  have hn1 : (1 : ℚ) ≤ (n : ℚ) := by exact_mod_cast hpos
  have hq0 : (0 : ℚ) ≤ h := by
    rw [hh]
    apply div_nonneg
    · nlinarith
    · norm_num
  have hle : h ≤ (n : ℚ) - 1 := by
    rw [hh]
    linarith
  have hfl : (qFloorNat h : ℤ) = ⌊h⌋ := qFloorNat_intCast h hq0
  have hfq : (qFloorNat h : ℚ) ≤ h := by
    have h0 := Int.floor_le h
    rw [← hfl] at h0
    exact_mod_cast h0
  have hfq1 : h ≤ (qFloorNat h : ℚ) + 1 := by
    have h0 := (Int.lt_floor_add_one h).le
    rw [← hfl] at h0
    exact_mod_cast h0
  have hden : 0 < h.den := h.pos
  have hlo_le_hi : qFloorNat h ≤ qCeilNat h := by
    unfold qFloorNat qCeilNat
    apply Nat.div_le_div_right
    omega
  have hnum_le : h.num.toNat ≤ (n - 1) * h.den := by
    have hcast : ((n - 1 : ℕ) : ℚ) = (n : ℚ) - 1 := by
      have h1n : 1 ≤ n := hpos
      push_cast [h1n]
      ring
    have hnd : ((h.num : ℚ)) / ((h.den : ℚ)) ≤ ((n - 1 : ℕ) : ℚ) := by
      rw [Rat.num_div_den, hcast]
      exact hle
    have hd0 : (0 : ℚ) < (h.den : ℚ) := by exact_mod_cast hden
    rw [div_le_iff₀ hd0] at hnd
    have hz : h.num ≤ (((n - 1) * h.den : ℕ) : ℤ) := by exact_mod_cast hnd
    exact Int.toNat_le.2 hz
  have hhi_le : qCeilNat h ≤ n - 1 := by
    unfold qCeilNat
    calc (h.num.toNat + h.den - 1) / h.den
        ≤ ((n - 1) * h.den + (h.den - 1)) / h.den :=
          Nat.div_le_div_right (by omega)
      _ = (h.den - 1 + (n - 1) * h.den) / h.den := by rw [Nat.add_comm]
      _ = (h.den - 1) / h.den + (n - 1) := Nat.add_mul_div_right _ _ hden
      _ = n - 1 := by rw [Nat.div_eq_of_lt (by omega)]; omega
  have hlo_lt : qFloorNat h < n := by
    have := le_trans hlo_le_hi hhi_le
    omega
  have hhi_lt : qCeilNat h < n := by omega
  have halo : a.getD (qFloorNat h) 0 = a.get ⟨qFloorNat h, hlo_lt⟩ := by
    rw [List.getD_eq_getElem a 0 hlo_lt, List.get_eq_getElem]
  have hahi : a.getD (qCeilNat h) 0 = a.get ⟨qCeilNat h, hhi_lt⟩ := by
    rw [List.getD_eq_getElem a 0 hhi_lt, List.get_eq_getElem]
  have hrel : a.get ⟨qFloorNat h, hlo_lt⟩ ≤ a.get ⟨qCeilNat h, hhi_lt⟩ :=
    hsort.rel_get_of_le hlo_le_hi
  have hmem_lo : a.get ⟨qFloorNat h, hlo_lt⟩ ∈ xs :=
    hperm.subset (a.get_mem _ _)
  have hmem_hi : a.get ⟨qCeilNat h, hhi_lt⟩ ∈ xs :=
    hperm.subset (a.get_mem _ _)
  constructor
  · refine ⟨a.get ⟨qFloorNat h, hlo_lt⟩, hmem_lo, ?_⟩
    rw [hval, halo, hahi]
    nlinarith [hrel, hfq]
  · refine ⟨a.get ⟨qCeilNat h, hhi_lt⟩, hmem_hi, ?_⟩
    rw [hval, halo, hahi]
    nlinarith [hrel, hfq, hfq1]

-- ### The per-map score against the specification

theorem score_eq_spec (m l : Arr3) (hm : m.wf) (hl : l.wf)
    (h1 : m.s1 = l.s1) (h2 : m.s2 = l.s2) (h3 : m.s3 = l.s3) :
    score m l = some (specOverlapScore l m) := by
  unfold score
  rw [npMul_same_shape m l hm hl h1 h2 h3]
  show some (if 0 < ((List.zipWith (· * ·) m.data l.data).filter
        (fun x => decide (x ≠ 0))).length
      then npPercentile ((List.zipWith (· * ·) m.data l.data).filter
        (fun x => decide (x ≠ 0))) 90
      else 0) = some (specOverlapScore l m)
  simp only [specOverlapScore]
  rw [List.zipWith_comm_of_comm (· * ·) mul_comm l.data m.data]
  by_cases hnz : (List.zipWith (· * ·) m.data l.data).filter (fun x => decide (x ≠ 0)) = []
  · rw [hnz]
    simp
  · rw [if_neg hnz, if_pos (List.length_pos.2 hnz), percentile90_eq_npPercentile]

theorem mem_nz_product : ∀ (ms ls : List ℚ) (x : ℚ),
    x ∈ (List.zipWith (· * ·) ms (ls.map binFun)).filter (fun v => decide (v ≠ 0)) →
      x ∈ ms.filter (fun v => decide (v ≠ 0))
  | [], _, _, hx => by simp at hx
  | _ :: _, [], _, hx => by simp at hx
  | m :: ms, l :: ls, x, hx => by
    obtain ⟨hmem, hnz⟩ := List.mem_filter.1 hx
    have hnzp : x ≠ 0 := of_decide_eq_true hnz
    rcases List.mem_cons.1 hmem with hx0 | hxrest
    · have hbl : binFun l = 1 := by
        by_cases hl : l = 0
        · exfalso
          apply hnzp
          rw [hx0]
          simp [binFun, hl]
        · simp [binFun, hl]
      have hx0' : x = m * binFun l := hx0
      rw [hbl, mul_one] at hx0'
      rw [hx0'] at hnz ⊢
      exact List.mem_filter.2 ⟨List.mem_cons_self m ms, hnz⟩
    · have hrec := mem_nz_product ms ls x (List.mem_filter.2 ⟨hxrest, hnz⟩)
      obtain ⟨hm, hz⟩ := List.mem_filter.1 hrec
      exact List.mem_filter.2 ⟨List.mem_cons_of_mem m hm, hz⟩

-- ### Zero-mask propagation

theorem getD_zero_of_all_zero {d : List ℚ} (h : ∀ x ∈ d, x = 0) (i : Nat) :
    d.getD i 0 = 0 := by
  rcases lt_or_ge i d.length with hi | hi
  · rw [List.getD_eq_getElem d 0 hi]
    exact h _ (List.getElem_mem hi)
  · exact List.getD_eq_default d 0 hi

theorem score_of_zero_mask (md p : Arr3) (hz : ∀ x ∈ p.data, x = 0) {v : ℚ}
    (hs : score md p = some v) : v = 0 := by
  cases hmul : npMul md p with
  | none =>
    unfold score at hs
    rw [hmul] at hs
    exact absurd hs (by simp)
  | some inter =>
    have hall : ∀ x ∈ inter.data, x = 0 := by
      intro x hx
      unfold npMul at hmul
      cases hb1 : bdim md.s1 p.s1 with
      | none => rw [hb1] at hmul; exact absurd hmul (by simp)
      | some r1 =>
        cases hb2 : bdim md.s2 p.s2 with
        | none => rw [hb1, hb2] at hmul; exact absurd hmul (by simp)
        | some r2 =>
          cases hb3 : bdim md.s3 p.s3 with
          | none => rw [hb1, hb2, hb3] at hmul; exact absurd hmul (by simp)
          | some r3 =>
            rw [hb1, hb2, hb3] at hmul
            have hdata : inter.data =
                (List.range r1).flatMap (fun i =>
                  (List.range r2).flatMap (fun j =>
                    (List.range r3).map (fun k =>
                      md.get (bidx md.s1 i) (bidx md.s2 j) (bidx md.s3 k) *
                        p.get (bidx p.s1 i) (bidx p.s2 j) (bidx p.s3 k)))) :=
              (congrArg Arr3.data (Option.some.inj hmul)).symm
            rw [hdata] at hx
            simp only [List.mem_flatMap, List.mem_map] at hx
            obtain ⟨i, _, j, _, k, _, hxeq⟩ := hx
            have hp : p.get (bidx p.s1 i) (bidx p.s2 j) (bidx p.s3 k) = 0 :=
              getD_zero_of_all_zero hz _
            rw [← hxeq, hp, mul_zero]
    have hnz : nonzeros inter = [] := by
      unfold nonzeros
      rw [List.filter_eq_nil_iff]
      intro a ha
      simp [hall a ha]
    have hsc : score md p = some (if 0 < (nonzeros inter).length then
        npPercentile (nonzeros inter) 90 else 0) := by
      unfold score
      rw [hmul]
    rw [hsc, hnz] at hs
    simp at hs
    exact hs.symm

theorem scoresLoop_zero (load : List Char → Option Arr3) (p : Arr3)
    (hz : ∀ x ∈ p.data, x = 0) :
    ∀ (ms : List (List Char)) (vs : List ℚ), scoresLoop load p ms = some vs →
      ∀ v ∈ vs, v = 0 := by
  intro ms
  induction ms with
  | nil =>
    intro vs hvs v hv
    unfold scoresLoop at hvs
    have : vs = [] := (Option.some.inj hvs).symm
    subst this
    simp at hv
  | cons m ms ih =>
    intro vs hvs v hv
    unfold scoresLoop at hvs
    cases hld : load m with
    | none => simp [hld] at hvs
    | some md =>
      simp only [hld] at hvs
      cases hsc : score md p with
      | none => simp [hsc] at hvs
      | some w =>
        simp only [hsc] at hvs
        cases hrest : scoresLoop load p ms with
        | none => simp [hrest] at hvs
        | some ws =>
          simp only [hrest] at hvs
          have hv' : vs = w :: ws := (Option.some.inj hvs).symm
          subst hv'
          rcases List.mem_cons.1 hv with rfl | hmem
          · exact score_of_zero_mask md p hz hsc
          · exact ih ws hrest v hmem

-- ### The claims

/-- Claim C1: for every lesion volume and every reference map of the same
shape, the per-pair score computed by the script equals the 90th percentile
(linear interpolation between nearest ranks) of the non-zero values of the
elementwise product of the binarized lesion mask and the reference map, and
is 0 when that product has no non-zero elements (in particular when the pair
has no voxel overlap). -/
theorem overlap_score_matches_spec (m l : Arr3) (hm : m.wf) (hl : l.wf)
    (hsh : m.sameShape l) :
    score m (binarize l) = some (specOverlapScore (binarize l) m) := by
  obtain ⟨h1, h2, h3⟩ := hsh
  exact score_eq_spec m (binarize l) hm
    (by simpa [Arr3.wf, binarize] using hl) h1 h2 h3

/-- Witness for C1 on a concrete pair: map values (2, 3), lesion (0, 5); the
only non-zero product value is 3, so the score is 3. -/
theorem overlap_score_matches_spec_witness :
    score ⟨1, 1, 2, [2, 3]⟩ (binarize ⟨1, 1, 2, [0, 5]⟩) = some 3 :=
  (overlap_score_matches_spec ⟨1, 1, 2, [2, 3]⟩ ⟨1, 1, 2, [0, 5]⟩
    (by decide) (by decide) (by decide)).trans (by with_unfolding_all decide)

/-- Claim C2 (evaluation at the failing input): the script does NOT abort on
every shape mismatch.  A reference map of shape (2, 1, 1) and a lesion of
shape (1, 1, 1) have different voxel grids, yet the NumPy product silently
broadcasts and the run produces the numeric score 19/5. -/
theorem mismatched_shapes_broadcast_silently :
    ¬ Arr3.sameShape (Arr3.mk 2 1 1 [2, 4]) (binarize (Arr3.mk 1 1 1 [5])) ∧
      score (Arr3.mk 2 1 1 [2, 4]) (binarize (Arr3.mk 1 1 1 [5])) = some (19 / 5) := by
  constructor
  · decide
  · with_unfolding_all decide

/-- Claim C3: when the product has at least one non-zero element, the score
lies within the closed interval spanned by the reference map's non-zero
values: some non-zero map value is below it and some above it. -/
theorem overlap_score_within_map_range (m l : Arr3) (hm : m.wf) (hl : l.wf)
    (hsh : m.sameShape l)
    (hnz : (List.zipWith (· * ·) m.data (binarize l).data).filter
      (fun v => decide (v ≠ 0)) ≠ []) :
    ∃ v, score m (binarize l) = some v ∧
      (∃ x ∈ nonzeros m, x ≤ v) ∧ (∃ y ∈ nonzeros m, v ≤ y) := by
  obtain ⟨h1, h2, h3⟩ := hsh
  have hs := score_eq_spec m (binarize l) hm
    (by simpa [Arr3.wf, binarize] using hl) h1 h2 h3
  refine ⟨specOverlapScore (binarize l) m, hs, ?_⟩
  simp only [specOverlapScore]
  rw [List.zipWith_comm_of_comm (· * ·) mul_comm (binarize l).data m.data]
  rw [if_neg hnz, percentile90_eq_npPercentile]
  obtain ⟨⟨x, hx, hxle⟩, ⟨y, hy, hyle⟩⟩ := percentile_between _ hnz
  exact ⟨⟨x, mem_nz_product m.data l.data x hx, hxle⟩,
    ⟨y, mem_nz_product m.data l.data y hy, hyle⟩⟩

/-- Witness for C3: map (1, 2, 3), lesion (1, 1, 0); the product is (1, 2, 0),
so the score is the 90th percentile of (1, 2) and lies between map values. -/
theorem overlap_score_within_map_range_witness :
    ∃ v, score ⟨1, 1, 3, [1, 2, 3]⟩ (binarize ⟨1, 1, 3, [1, 1, 0]⟩) = some v ∧
      (∃ x ∈ nonzeros ⟨1, 1, 3, [1, 2, 3]⟩, x ≤ v) ∧
      (∃ y ∈ nonzeros ⟨1, 1, 3, [1, 2, 3]⟩, v ≤ y) :=
  overlap_score_within_map_range ⟨1, 1, 3, [1, 2, 3]⟩ ⟨1, 1, 3, [1, 1, 0]⟩
    (by decide) (by decide) (by decide) (by with_unfolding_all decide)

/-- Claim C4: when the lesion path does not exist the program raises a
file-not-found error (a non-zero outcome) before any processing — for every
environment, so no reference map is loaded and no output is produced;
otherwise, when processing succeeds, it returns the output table written to
the requested path and prints the confirmation lines naming the output path
and the patient identifier, exiting 0 (`Except.ok`). -/
theorem missing_lesion_aborts_otherwise_ok :
    (∀ (env : Env) (lp op : List Char), env.fileExists lp = false →
        runProgram env lp op = Except.error (fnfMsg lp)) ∧
    (∀ (env : Env) (lp op : List Char) (out : Output),
        env.fileExists lp = true → runMain env lp op = some out →
          runProgram env lp op = Except.ok out ∧
            out.writtenPath = op ∧ out.rowLabel = patId lp ∧
            out.printed = [msgSaved op, msgPatient (patId lp)]) := by
  constructor
  · intro env lp op hex
    simp [runProgram, hex]
  · intro env lp op out hex hrun
    have hprog : runProgram env lp op = Except.ok out := by
      simp [runProgram, hex, hrun]
    refine ⟨hprog, ?_⟩
    unfold runMain at hrun
    cases hload : env.load lp with
    | none => simp [hload] at hrun
    | some pat0 =>
      simp only [hload] at hrun
      cases hloop : scoresLoop env.load (binarize pat0) (mapsOf env) with
      | none => simp [hloop] at hrun
      | some vs =>
        simp only [hloop] at hrun
        have hout := Option.some.inj hrun
        rw [← hout]
        exact ⟨rfl, rfl, rfl⟩

/-- Witness for C4: a missing lesion file yields the file-not-found error;
an existing lesion file with an empty map library yields exit 0 with the
confirmation lines. -/
theorem missing_lesion_aborts_otherwise_ok_witness :
    runProgram ⟨[], fun _ => false, fun _ => none⟩ ("L.nii".data) ("o.csv".data) =
        Except.error (fnfMsg ("L.nii".data)) ∧
      runProgram ⟨[], fun _ => true, fun _ => some ⟨1, 1, 1, [0]⟩⟩
          ("L.nii".data) ("o.csv".data) =
        Except.ok ⟨"o.csv".data, patId ("L.nii".data), [],
          [msgSaved ("o.csv".data), msgPatient (patId ("L.nii".data))]⟩ :=
  ⟨missing_lesion_aborts_otherwise_ok.1 ⟨[], fun _ => false, fun _ => none⟩ _ _ rfl,
   (missing_lesion_aborts_otherwise_ok.2 ⟨[], fun _ => true, fun _ => some ⟨1, 1, 1, [0]⟩⟩
      ("L.nii".data) ("o.csv".data) _ rfl (by with_unfolding_all decide)).1⟩

/-- Claim C5: the output column order equals the ascending lexicographic order
of the reference map file names — the columns are invariant under any
re-enumeration of the directory, and equal the display names of the matched
file names taken in sorted order. -/
theorem columns_sorted_by_file_name :
    (∀ env env' : Env, env.dirFiles.Perm env'.dirFiles →
        mainColumns env = mainColumns env') ∧
    (∀ env : Env, (∀ n ∈ env.dirFiles, '/' ∉ n) →
        mainColumns env =
          (List.insertionSort chLE (env.dirFiles.filter globMatch)).map
            (beforeFirst suffixChars)) := by
  constructor
  · intro env env' hperm
    unfold mainColumns mapsOf
    rw [insertionSort_eq_of_perm ((hperm.filter globMatch).map joinPath)]
  · intro env h
    unfold mainColumns mapsOf
    rw [insertionSort_map_joinPath, List.map_map]
    apply List.map_congr_left
    intro n hn
    rw [List.mem_insertionSort] at hn
    exact displayName_joinPath n (h n (List.mem_filter.1 hn).1)

/-- Witness for C5: two enumeration orders of the same two map files give the
same columns, in ascending file-name order. -/
theorem columns_sorted_by_file_name_witness :
    mainColumns ⟨["bgz".data, "agz".data], fun _ => true, fun _ => none⟩ =
        mainColumns ⟨["agz".data, "bgz".data], fun _ => true, fun _ => none⟩ ∧
      mainColumns ⟨["bgz".data, "agz".data], fun _ => true, fun _ => none⟩ =
        ["agz".data, "bgz".data] :=
  ⟨columns_sorted_by_file_name.1 ⟨["bgz".data, "agz".data], fun _ => true, fun _ => none⟩
      ⟨["agz".data, "bgz".data], fun _ => true, fun _ => none⟩ (by decide),
   (columns_sorted_by_file_name.2 ⟨["bgz".data, "agz".data], fun _ => true, fun _ => none⟩
      (by decide)).trans (by decide)⟩

/-- Claim C6: the display name of a reference map file is its file name with
the leading path components removed and the exact suffix
`_union_randomise_1mm.nii.gz` stripped (the part before its first
occurrence). -/
theorem display_name_strips_suffix (name : List Char) (h : '/' ∉ name) :
    displayName (joinPath name) = beforeFirst suffixChars name ∧
      basenameChars (joinPath name) = name :=
  ⟨displayName_joinPath name h, afterLast_append '/' dirChars name h⟩

/-- Witness for C6 at the specification's example: the map file
`Thalamus_union_randomise_1mm.nii.gz` yields column name `Thalamus`. -/
theorem display_name_strips_suffix_witness :
    displayName (joinPath ("Thalamus_union_randomise_1mm.nii.gz".data)) = "Thalamus".data :=
  ((display_name_strips_suffix ("Thalamus_union_randomise_1mm.nii.gz".data)
    (by decide)).1).trans (by decide)

/-- Claim C7: the patient identifier is the substring of the lesion file's
base name before the first underscore: it contains no underscore, it is a
prefix of the base name, and what follows is empty or starts with an
underscore; e.g. `P003_lesion.nii.gz` yields `P003`. -/
theorem patient_id_before_first_underscore :
    (∀ lp : List Char, '_' ∉ patId lp ∧
      ∃ rest, basenameChars lp = patId lp ++ rest ∧
        (rest = [] ∨ ∃ t, rest = '_' :: t)) ∧
    patId ("P003_lesion.nii.gz".data) = "P003".data := by
  constructor
  · intro lp
    exact beforeFirst_singleton '_' (basenameChars lp)
  · decide

/-- Claim C8: binarization (non-zero voxels to 1, zero voxels to 0) is
idempotent: applying the rule twice yields the same mask as applying it once. -/
theorem binarize_idempotent (A : Arr3) : binarize (binarize A) = binarize A := by
  simp only [binarize, List.map_map]
  congr 1
  apply List.map_congr_left
  intro x _
  by_cases h : x = 0 <;> simp [binFun, Function.comp, h]

/-- Claim C9: if the lesion volume is entirely zero, every column of the
single output row is 0, whatever the reference maps contain. -/
theorem zero_lesion_gives_zero_row (env : Env) (lp op : List Char) (out : Output)
    (L : Arr3) (hload : env.load lp = some L) (hz : ∀ x ∈ L.data, x = 0)
    (hrun : runMain env lp op = some out) :
    ∀ pr ∈ out.table, pr.2 = 0 := by
  intro pr hpr
  unfold runMain at hrun
  simp only [hload] at hrun
  cases hloop : scoresLoop env.load (binarize L) (mapsOf env) with
  | none => simp [hloop] at hrun
  | some vs =>
    simp only [hloop] at hrun
    have hbz : ∀ x ∈ (binarize L).data, x = 0 := by
      intro x hx
      simp only [binarize, List.mem_map] at hx
      obtain ⟨y, hy, rfl⟩ := hx
      simp [binFun, hz y hy]
    have hvz := scoresLoop_zero env.load (binarize L) hbz (mapsOf env) vs hloop
    have hout := Option.some.inj hrun
    rw [← hout] at hpr
    exact hvz pr.2 (List.of_mem_zip hpr).2

/-- Witness for C9: a one-map library with an all-zero lesion volume produces
the single row (agz, 0), whose value is 0. -/
theorem zero_lesion_gives_zero_row_witness :
    (("agz".data, (0 : ℚ))).2 = 0 :=
  zero_lesion_gives_zero_row envW9 ("P1_les.nii".data) ("out.csv".data) outW9
    ⟨1, 1, 1, [0]⟩ (by with_unfolding_all decide) (by with_unfolding_all decide)
    (by with_unfolding_all decide) (("agz".data, (0 : ℚ)))
    (by with_unfolding_all decide)

/-- Claim C10: a library file matched by `*gz` whose name does not contain the
suffix `_union_randomise_1mm.nii.gz` keeps its entire file name (extension
included) as display name, and still contributes a column. -/
theorem no_suffix_name_kept_whole (name : List Char) (h1 : '/' ∉ name)
    (h2 : ¬ (suffixChars <:+: name)) :
    displayName (joinPath name) = name ∧
      ∀ env : Env, name ∈ env.dirFiles → globMatch name = true →
        name ∈ mainColumns env := by
  have hd : displayName (joinPath name) = name :=
    (displayName_joinPath name h1).trans (beforeFirst_of_no_occurrence suffixChars name h2)
  refine ⟨hd, ?_⟩
  intro env hmem hg
  have hmaps : joinPath name ∈ mapsOf env := by
    unfold mapsOf
    rw [List.mem_insertionSort]
    exact List.mem_map_of_mem joinPath (List.mem_filter.2 ⟨hmem, hg⟩)
  unfold mainColumns
  exact hd ▸ List.mem_map_of_mem displayName hmaps

/-- Witness for C10: the file `mapA.nii.gz` matches `*gz`, lacks the known
suffix, and appears as the column `mapA.nii.gz`. -/
theorem no_suffix_name_kept_whole_witness :
    displayName (joinPath ("mapA.nii.gz".data)) = "mapA.nii.gz".data ∧
      "mapA.nii.gz".data ∈
        mainColumns ⟨["mapA.nii.gz".data], fun _ => true, fun _ => none⟩ :=
  ⟨(no_suffix_name_kept_whole ("mapA.nii.gz".data) (by decide) (by decide)).1,
   (no_suffix_name_kept_whole ("mapA.nii.gz".data) (by decide) (by decide)).2
      ⟨["mapA.nii.gz".data], fun _ => true, fun _ => none⟩ (by decide) (by decide)⟩

end OverlapQuantifier
